import Mathlib

/-!
Verification of the `neex` incremental monorepo task runner against its
natural-language specification.  Each Rust function named in the claims is
shallowly embedded as an executable Lean definition; machine integers are
modelled as `Nat`/`Int`, fallible code as `Option`/`Except`, and stateful
code as explicit state passing or a step relation.  Cryptographic digests
(BLAKE3) are modelled by the exact byte stream fed to the hasher: equal
streams give equal digests, and distinct streams give distinct digests
under the collision resistance the implementation relies on.
-/

/-! ## Association-list model of Rust HashMap / sled upserts

`insertAssoc` models `HashMap::insert` / `sled::Batch::insert`: the new
binding replaces any previous binding of the same key. -/

def insertAssoc {α : Type} (m : List (String × α)) (k : String) (v : α) :
    List (String × α) :=
  (m.filter (fun kv => kv.1 ≠ k)) ++ [(k, v)]

def lookupAssoc {α : Type} (m : List (String × α)) (k : String) : Option α :=
  (m.find? (fun kv => kv.1 = k)).map (fun kv => kv.2)

theorem lookupAssoc_insert_self {α : Type} (m : List (String × α)) (k : String) (v : α) :
    lookupAssoc (insertAssoc m k v) k = some v := by
  unfold lookupAssoc insertAssoc
  rw [List.find?_append]
  have hnone : (m.filter (fun kv => kv.1 ≠ k)).find? (fun kv => kv.1 = k) = none := by
    rw [List.find?_eq_none]
    intro kv hkv
    have hmem := List.of_mem_filter hkv
    simp only [decide_eq_true_eq] at hmem ⊢
    exact hmem
  rw [hnone]
  simp

theorem find?_filter_keepNe {α : Type} (m : List (String × α)) (k a : String) (h : a ≠ k) :
    (m.filter (fun kv => kv.1 ≠ k)).find? (fun kv => kv.1 = a)
      = m.find? (fun kv => kv.1 = a) := by
  induction m with
  | nil => rfl
  | cons hd tl ih =>
    by_cases hk : hd.1 = k
    · rw [List.filter_cons_of_neg (by simp [hk]), ih]
      have hne : ¬ ((fun kv => decide (kv.1 = a)) hd = true) := by
        simp [hk]
        intro hc
        exact absurd hc.symm h
      exact (List.find?_cons_of_neg tl hne).symm
    · rw [List.filter_cons_of_pos (by simp [hk])]
      by_cases hhd : hd.1 = a
      · rw [List.find?_cons_of_pos _ (by simp [hhd]), List.find?_cons_of_pos _ (by simp [hhd])]
      · rw [List.find?_cons_of_neg _ (by simp [hhd]), List.find?_cons_of_neg _ (by simp [hhd]),
          ih]

theorem lookupAssoc_insert_ne {α : Type} (m : List (String × α)) (k : String) (v : α)
    (a : String) (h : a ≠ k) :
    lookupAssoc (insertAssoc m k v) a = lookupAssoc m a := by
  unfold lookupAssoc insertAssoc
  rw [List.find?_append, find?_filter_keepNe m k a h]
  cases hfind : m.find? (fun kv => kv.1 = a) with
  | none =>
    have hne : ¬ ((fun kv => decide (kv.1 = a)) (k, v) = true) := by
      simp
      intro hc
      exact absurd hc.symm h
    have hone : List.find? (fun kv => decide (kv.1 = a)) [(k, v)] = none :=
      List.find?_cons_of_neg [] hne
    rw [Option.none_or, hone]
  | some kv => rfl

/-- Lookup after folding a list of insertions: the last insertion of a key
wins; keys never inserted fall through to the initial map. -/
theorem lookupAssoc_foldl_insert {α : Type} (l : List (String × α))
    (m : List (String × α)) (k : String) :
    lookupAssoc (l.foldl (fun acc kv => insertAssoc acc kv.1 kv.2) m) k
      = Option.or ((l.reverse.find? (fun kv => kv.1 = k)).map (fun kv => kv.2))
          (lookupAssoc m k) := by
  induction l generalizing m with
  | nil => rfl
  | cons hd tl ih =>
    simp only [List.foldl_cons, List.reverse_cons, List.find?_append]
    rw [ih]
    cases hfind : tl.reverse.find? (fun kv => kv.1 = k) with
    | some kv => rfl
    | none =>
      by_cases hk : hd.1 = k
      · have hone : List.find? (fun kv => decide (kv.1 = k)) [hd] = some hd :=
          List.find?_cons_of_pos [] (by simp [hk])
        rw [hone]
        have hins : insertAssoc m hd.1 hd.2 = insertAssoc m k hd.2 := by rw [hk]
        rw [hins, lookupAssoc_insert_self]
        rfl
      · have hone : List.find? (fun kv => decide (kv.1 = k)) [hd] = none :=
          List.find?_cons_of_neg [] (by simp [hk])
        rw [hone, lookupAssoc_insert_ne _ _ _ _ (fun hc => hk hc.symm)]
        rfl

/-! ## C2 — Task runner and tiered cache key (`neex-cli/src/main.rs
run_script_tiered`, `neex-core/src/runner.rs TaskRunner::execute`)

`TaskOutput` is the serialized cache value.  `ExecCapture` packages the
observable outcome of the spawned subprocess (an external effect), which
`TaskRunner::execute` turns into a `TaskOutput` whose `hash` field is the
empty string (runner.rs line 136: `hash: String::new()`). -/

structure TaskOutput where
  stdout : List String
  stderr : List String
  exit_code : Int
  duration_ms : Nat
  hash : String
  cached_at : Nat
deriving DecidableEq, Repr

structure ExecCapture where
  stdout : List String
  stderr : List String
  exitCode : Int
  durationMs : Nat
  cachedAt : Nat
deriving DecidableEq, Repr

/-- `TaskRunner::execute` (runner.rs lines 87-142): build the TaskOutput
from the captured subprocess lines, exit code, duration and wall clock;
its `hash` field is left empty. -/
def TaskRunner.execute (c : ExecCapture) : TaskOutput :=
  { stdout := c.stdout
    stderr := c.stderr
    exit_code := c.exitCode
    duration_ms := c.durationMs
    hash := ""
    cached_at := c.cachedAt }

/-- The cache key of main.rs line 444:
`format!("{}:{}", script, &project_hash[..16])`. -/
def cacheKey (script projectHash : String) : String :=
  script ++ ":" ++ String.mk (projectHash.toList.take 16)

/-- The L4 (cache-miss) tail of `run_script_tiered` (main.rs lines 479-493):
execute, then clone the output, overwrite its `hash` field with the cache
key, and store it under that same key.  Returns the `(key, stored value)`
pair handed to `store_cached`. -/
def storedOutputL4 (script projectHash : String) (c : ExecCapture) : String × TaskOutput :=
  let key := cacheKey script projectHash
  let output := TaskRunner.execute c
  (key, { output with hash := key })

def demoCapture : ExecCapture :=
  { stdout := ["hello"], stderr := [], exitCode := 0, durationMs := 5, cachedAt := 1700000000 }

/-- A 64-hex-character global fingerprint, as produced by
`Hasher::global_hash`. -/
def demoFingerprint : String :=
  "0123456789abcdef0123456789abcdef0123456789abcdef0123456789abcdef"

/-- Claim C2 counterexample: at the concrete L4 execution with script
`build` and the 64-character fingerprint `demoFingerprint`, the stored
TaskOutput's hash field is NOT the full untruncated fingerprint — it is
the cache key `build:0123456789abcdef` (script prefix plus the first 16
hex characters). -/
theorem stored_hash_not_full_fingerprint :
    (storedOutputL4 "build" demoFingerprint demoCapture).2.hash ≠ demoFingerprint
    ∧ (storedOutputL4 "build" demoFingerprint demoCapture).2.hash
        = "build:0123456789abcdef" := by
  constructor
  · decide
  · rfl

/-- Claim C2 (amended): the TaskOutput persisted by the L4 path of
`run_script_tiered` carries in its `hash` field the cache key itself —
`<script>:<first-16-hex-chars-of-fingerprint>` — i.e. exactly the
truncated key it is stored under, not the untruncated fingerprint. -/
theorem stored_hash_is_cache_key (script projectHash : String) (c : ExecCapture) :
    (storedOutputL4 script projectHash c).2.hash = cacheKey script projectHash
    ∧ (storedOutputL4 script projectHash c).1 = cacheKey script projectHash := by
  exact ⟨rfl, rfl⟩

/-! ## C3 — Daemon state full rescan (`neex-daemon/src/state.rs
DaemonState::full_scan`)

The daemon keeps an in-memory map from absolute path to digest plus a
sled DB mirror.  `full_scan` takes the rescan result (`hash_all` is an
external filesystem effect, so its output list is a parameter), clears
the in-memory map, re-inserts every scanned entry, and applies a sled
batch holding the same insertions to the DB. -/

structure FileHashRec where
  path : String
  hash : String
  size : Nat
deriving DecidableEq, Repr

structure DaemonStateM where
  hashes : List (String × String)
  db : List (String × String)
deriving DecidableEq, Repr

/-- `DaemonState::full_scan` (state.rs lines 66-90): `hashes.clear()` then
insert every scanned file into the fresh map; build a `sled::Batch` of
inserts for the same files and apply it to the existing DB.  The batch
contains only inserts — no removals. -/
def full_scan (s : DaemonStateM) (files : List FileHashRec) : DaemonStateM :=
  { hashes := files.foldl (fun m f => insertAssoc m f.path f.hash) []
    db := files.foldl (fun d f => insertAssoc d f.path f.hash) s.db }

/-- A daemon state whose previous scan recorded one file `old.txt`. -/
def demoDaemonState : DaemonStateM :=
  { hashes := [("old.txt", "aaaa")], db := [("old.txt", "aaaa")] }

/-- Claim C3 counterexample: rescanning after `old.txt` was deleted (the
rescan finds only `new.txt`) removes `old.txt` from the in-memory map but
leaves its entry in the persistent sled store, because the batch only
inserts. -/
theorem full_scan_keeps_stale_db_entry :
    lookupAssoc (full_scan demoDaemonState [⟨"new.txt", "bbbb", 4⟩]).hashes "old.txt" = none
    ∧ lookupAssoc (full_scan demoDaemonState [⟨"new.txt", "bbbb", 4⟩]).db "old.txt"
        = some "aaaa" := by
  exact ⟨rfl, rfl⟩

/-- Claim C3 (amended): after `full_scan` the in-memory map contains
exactly the (path, digest) entries produced by the rescan (last write
wins per path), while the persistent store contains the rescanned entries
plus every previous entry whose path the rescan did not produce — stale
paths are not removed from the DB. -/
theorem full_scan_mem_replaced_db_upserted (s : DaemonStateM) (files : List FileHashRec)
    (p : String) :
    lookupAssoc (full_scan s files).hashes p
      = (files.reverse.find? (fun f => f.path = p)).map (fun f => f.hash)
    ∧ lookupAssoc (full_scan s files).db p
      = Option.or ((files.reverse.find? (fun f => f.path = p)).map (fun f => f.hash))
          (lookupAssoc s.db p) := by
  have hmap : ∀ (m : List (String × String)),
      files.foldl (fun d f => insertAssoc d f.path f.hash) m
        = (files.map (fun f => (f.path, f.hash))).foldl
            (fun acc kv => insertAssoc acc kv.1 kv.2) m := by
    intro m
    rw [List.foldl_map]
  have hfind : ∀ (l : List FileHashRec),
      (l.map (fun f => (f.path, f.hash))).find? (fun kv => kv.1 = p)
        = (l.find? (fun f => f.path = p)).map (fun f => (f.path, f.hash)) := by
    intro l
    induction l with
    | nil => rfl
    | cons hd tl ih =>
      by_cases hhd : hd.path = p
      · simp [List.find?_cons, hhd]
      · simp [List.find?_cons, hhd, ih]
  constructor
  · show lookupAssoc (files.foldl (fun m f => insertAssoc m f.path f.hash) []) p = _
    rw [hmap, lookupAssoc_foldl_insert, ← List.map_reverse, hfind]
    cases files.reverse.find? (fun f => f.path = p) with
    | none => rfl
    | some f => rfl
  · show lookupAssoc (files.foldl (fun d f => insertAssoc d f.path f.hash) s.db) p = _
    rw [hmap, lookupAssoc_foldl_insert, ← List.map_reverse, hfind]
    cases files.reverse.find? (fun f => f.path = p) with
    | none => rfl
    | some f => rfl

/-! ## C4 — Cloud cache download (`neex-core/src/cloud.rs
CloudCache::download`)

The HTTP exchange is an external effect: `HttpOutcome` is either a
response (status and body bytes) or a transport-level failure of
`reqwest::Client::send`, which the `?` operator propagates as an error. -/

inductive HttpOutcome where
  | response (status : Nat) (body : List Nat)
  | transportError (msg : String)
deriving DecidableEq, Repr

/-- `reqwest::StatusCode::is_success`: 2xx. -/
def statusIsSuccess (s : Nat) : Bool :=
  decide (200 ≤ s) && decide (s < 300)

/-- `CloudCache::download` (cloud.rs lines 175-193): disabled returns
`Ok(None)`; a transport failure propagates as `Err`; a response returns
`Ok(Some(body))` when the status is 2xx and `Ok(None)` for every other
status. -/
def CloudCache.download (enabled : Bool) (outcome : HttpOutcome) :
    Except String (Option (List Nat)) :=
  if !enabled then .ok none
  else
    match outcome with
    | .transportError e => .error e
    | .response st body => if statusIsSuccess st then .ok (some body) else .ok none

/-- Claim C4 counterexample: with the cache enabled, a 500 response makes
`download` return `Ok(None)` — indistinguishable from a 404 miss — not an
error as the claim requires. -/
theorem download_500_returns_none :
    CloudCache.download true (.response 500 [1, 2, 3]) = .ok none := by
  rfl

/-- Claim C4 (amended): when enabled, `download` returns the body bytes
exactly on 2xx responses and none on every non-2xx response (404 and all
other statuses alike); only transport-level failures produce an error. -/
theorem download_behaviour (st : Nat) (body : List Nat) (msg : String) :
    CloudCache.download true (.response st body)
      = (if statusIsSuccess st then .ok (some body) else .ok none)
    ∧ CloudCache.download true (.transportError msg) = .error msg := by
  exact ⟨rfl, rfl⟩

/-! ## C7 — AST-structural hash (`neex-core/src/ast_hasher.rs`)

`hash_ast` parses a JS/TS file with tree-sitter and walks the tree
pre-order, feeding bytes into a BLAKE3 hasher.  The digest is modelled by
the exact byte stream fed to the hasher (`hasher.update` becomes list
append): equal streams yield equal BLAKE3 digests, and distinct streams
yield distinct digests under the collision resistance the implementation
relies on.  Tree-sitter itself is an external grammar: a node is its kind
name, byte range and children, and the parse trees of the three literal
scenario inputs are transcribed below from the tree-sitter-typescript
grammar. -/

mutual
inductive TSNode where
  | node (kind : String) (startByte endByte : Nat) (children : TSForest)
inductive TSForest where
  | nil
  | cons (head : TSNode) (tail : TSForest)
end

def TSForest.ofList : List TSNode → TSForest
  | [] => .nil
  | h :: t => .cons h (TSForest.ofList t)

def TSForest.isNil : TSForest → Bool
  | .nil => true
  | .cons _ _ => false

def strBytes (s : String) : List Nat :=
  s.toList.map Char.toNat

def sliceBytes (source : List Nat) (startByte endByte : Nat) : List Nat :=
  (source.drop startByte).take (endByte - startByte)

/-- Rust `str::contains("comment")` on a node-kind name. -/
def kindIsComment (kind : String) : Bool :=
  decide (("comment".toList) <:+: kind.toList)

mutual
/-- `hash_node` (ast_hasher.rs lines 54-76): skip a comment subtree
entirely; otherwise feed the node-kind bytes, then — only for leaves
(no children) — the node's source byte range, then recurse into the
children in order.  `acc` is the byte stream fed to the hasher so far. -/
def hash_node (source : List Nat) (acc : List Nat) : TSNode → List Nat
  | .node kind startByte endByte children =>
    if kindIsComment kind then acc
    else
      let acc1 := acc ++ strBytes kind
      let acc2 := if children.isNil then acc1 ++ sliceBytes source startByte endByte
                  else acc1
      hash_forest source acc2 children

/-- The `for child in node.children` recursion of `hash_node`. -/
def hash_forest (source : List Nat) (acc : List Nat) : TSForest → List Nat
  | .nil => acc
  | .cons h t => hash_forest source (hash_node source acc h) t
end

/-- `hash_raw` (ast_hasher.rs lines 79-83): the raw content bytes are fed
to the hasher. -/
def hash_raw (content : List Nat) : List Nat :=
  content

inductive TSLang where
  | typescript
  | tsx
  | javascript
deriving DecidableEq, Repr

/-- The extension routing of ast_hasher.rs lines 26-34. -/
def extLanguage (ext : String) : Option TSLang :=
  if ext = "ts" ∨ ext = "mts" ∨ ext = "cts" then some .typescript
  else if ext = "tsx" then some .tsx
  else if ext = "js" ∨ ext = "mjs" ∨ ext = "cjs" ∨ ext = "jsx" then some .javascript
  else none

/-- `hash_ast` (ast_hasher.rs lines 22-51): non-JS/TS extensions hash the
raw content; a parse failure falls back to the raw content; otherwise the
tree is walked from the root with an empty hasher.  The parse tree of the
external tree-sitter grammar is passed in as `parsed`. -/
def hash_ast (ext : String) (content : List Nat) (parsed : Option TSNode) : List Nat :=
  match extLanguage ext with
  | none => hash_raw content
  | some _ =>
    match parsed with
    | none => hash_raw content
    | some t => hash_node content [] t

def code1Bytes : List Nat := strBytes "const a = 1;"

def code2Bytes : List Nat := strBytes "const a = 1; // comment"

def code3Bytes : List Nat := strBytes "const a = 2;"

/-- tree-sitter-typescript parse of `const a = 1;`. -/
def tsTree1 : TSNode :=
  .node "program" 0 12 (TSForest.ofList
    [.node "lexical_declaration" 0 12 (TSForest.ofList
      [.node "const" 0 5 .nil,
       .node "variable_declarator" 6 11 (TSForest.ofList
         [.node "identifier" 6 7 .nil,
          .node "=" 8 9 .nil,
          .node "number" 10 11 .nil]),
       .node ";" 11 12 .nil])])

/-- tree-sitter-typescript parse of `const a = 1; // comment`: the same
declaration followed by a `comment` node spanning bytes 13-23. -/
def tsTree2 : TSNode :=
  .node "program" 0 23 (TSForest.ofList
    [.node "lexical_declaration" 0 12 (TSForest.ofList
      [.node "const" 0 5 .nil,
       .node "variable_declarator" 6 11 (TSForest.ofList
         [.node "identifier" 6 7 .nil,
          .node "=" 8 9 .nil,
          .node "number" 10 11 .nil]),
       .node ";" 11 12 .nil]),
     .node "comment" 13 23 .nil])

/-- tree-sitter-typescript parse of `const a = 2;`. -/
def tsTree3 : TSNode :=
  .node "program" 0 12 (TSForest.ofList
    [.node "lexical_declaration" 0 12 (TSForest.ofList
      [.node "const" 0 5 .nil,
       .node "variable_declarator" 6 11 (TSForest.ofList
         [.node "identifier" 6 7 .nil,
          .node "=" 8 9 .nil,
          .node "number" 10 11 .nil]),
       .node ";" 11 12 .nil])])

/-- Claim C7: hashing `const a = 1;` and `const a = 1; // comment` as
`.ts` files feeds identical byte streams to the hasher (the comment
subtree is skipped), so their digests agree; hashing `const a = 2;`
feeds a different stream (the `number` leaf bytes differ), so its digest
differs from that of `const a = 1;`. -/
theorem hash_ast_comment_invariant_content_sensitive :
    hash_ast "ts" code1Bytes (some tsTree1) = hash_ast "ts" code2Bytes (some tsTree2)
    ∧ hash_ast "ts" code3Bytes (some tsTree3) ≠ hash_ast "ts" code1Bytes (some tsTree1) := by
  decide

/-! ## C10 — Symbol graph snapshot and diff (`neex-core/src/symbol_graph.rs`)

`SymbolGraph` is built from the filesystem by `SymbolGraph::build`; here
the built data is the object of study.  Rust `PathBuf`s are modelled as
component lists so that `Path::starts_with` (component-wise prefix) is
`List.IsPrefix`.  The section lives in namespace `SG` because Mathlib
already has a declaration named `Symbol`. -/

namespace SG

inductive SymbolKind where
  | function
  | classDecl
  | constDecl
  | variableDecl
  | typeDecl
  | interfaceDecl
  | enumDecl
deriving DecidableEq, Repr

structure Symbol where
  name : String
  kind : SymbolKind
  hash : String
  line : Nat
deriving DecidableEq, Repr

structure SymbolGraph where
  consumers : List (String × List (List String))
  exports : List (List String × List Symbol)
  packages : List (String × List String)
deriving DecidableEq, Repr

structure SymbolCache where
  hashes : List (String × String)
deriving DecidableEq, Repr

/-- Rust `Path::starts_with`: component-wise prefix. -/
def pathStartsWith (p base : List String) : Bool :=
  decide (base <+: p)

/-- The package-name resolution inside `get_all_symbols` (symbol_graph.rs
lines 236-239): the first discovered package whose path is a prefix of the
file's path, defaulting to the file path rendered as a string. -/
def pkgNameForPath (g : SymbolGraph) (path : List String) : String :=
  match g.packages.find? (fun kv => pathStartsWith path kv.2) with
  | some kv => kv.1
  | none => String.intercalate "/" path

/-- `SymbolGraph::get_all_symbols` (symbol_graph.rs lines 231-248): for
every file's export list, emit `(package:name, hash)` pairs. -/
def get_all_symbols (g : SymbolGraph) : List (String × String) :=
  (g.exports.map (fun pe =>
    pe.2.map (fun s => (pkgNameForPath g pe.1 ++ ":" ++ s.name, s.hash)))).flatten

/-- `SymbolGraph::to_cache` (symbol_graph.rs lines 278-286): insert every
`(id, hash)` pair into a fresh map; for duplicate ids the last insertion
wins, as with `HashMap::insert`. -/
def to_cache (g : SymbolGraph) : SymbolCache :=
  { hashes := (get_all_symbols g).foldl (fun m idh => insertAssoc m idh.1 idh.2) [] }

/-- `SymbolGraph::get_changed_symbols` (symbol_graph.rs lines 251-262):
an id is pushed when it is absent from the cache or its cached hash
differs. -/
def get_changed_symbols (g : SymbolGraph) (cache : SymbolCache) : List String :=
  (get_all_symbols g).foldl (fun changed idh =>
    match lookupAssoc cache.hashes idh.1 with
    | some oldHash => if oldHash = idh.2 then changed else changed ++ [idh.1]
    | none => changed ++ [idh.1]) []

/-- A buildable graph in which two files of the same package each export a
symbol named `f`, with different declaration digests — so the SymbolId
`p:f` occurs twice with conflicting hashes. -/
def demoSymbolGraphDup : SymbolGraph :=
  { consumers := []
    exports := [(["p", "a.ts"], [⟨"f", .function, "h1", 1⟩]),
                (["p", "b.ts"], [⟨"f", .function, "h2", 1⟩])]
    packages := [("p", ["p"])] }

/-- Claim C10 counterexample: on `demoSymbolGraphDup`, comparing the graph
against its own snapshot reports `p:f` as changed — `to_cache` keeps only
the last hash inserted for a duplicated id, so the earlier occurrence
always differs from the cache.  Snapshot-then-diff is not a fixed point
for every built graph. -/
theorem snapshot_diff_not_fixed_point :
    get_changed_symbols demoSymbolGraphDup (to_cache demoSymbolGraphDup) = ["p:f"]
    ∧ get_changed_symbols demoSymbolGraphDup (to_cache demoSymbolGraphDup) ≠ [] := by
  constructor
  · rfl
  · decide

theorem lookupAssoc_foldl_of_mem (l : List (String × String)) (x : String × String)
    (hx : x ∈ l) :
    ∃ y : String × String, y ∈ l ∧ y.1 = x.1
      ∧ lookupAssoc (l.foldl (fun m kv => insertAssoc m kv.1 kv.2) []) x.1 = some y.2 := by
  have hrev : x ∈ l.reverse := List.mem_reverse.mpr hx
  have hsome : (l.reverse.find? (fun kv => kv.1 = x.1)).isSome := by
    rw [List.find?_isSome]
    exact ⟨x, hrev, by simp⟩
  cases hfind : l.reverse.find? (fun kv => kv.1 = x.1) with
  | none => rw [hfind] at hsome; simp at hsome
  | some y =>
    refine ⟨y, List.mem_reverse.mp (List.mem_of_find?_eq_some hfind), ?_, ?_⟩
    · have := List.find?_some hfind
      simpa using this
    · rw [lookupAssoc_foldl_insert, hfind]
      rfl

theorem get_changed_foldl_const (cache : SymbolCache) (l : List (String × String))
    (acc : List String)
    (hall : ∀ x ∈ l, lookupAssoc cache.hashes x.1 = some x.2) :
    l.foldl (fun changed idh =>
      match lookupAssoc cache.hashes idh.1 with
      | some oldHash => if oldHash = idh.2 then changed else changed ++ [idh.1]
      | none => changed ++ [idh.1]) acc = acc := by
  induction l generalizing acc with
  | nil => rfl
  | cons hd tl ih =>
    have hhd := hall hd (List.mem_cons_self hd tl)
    rw [List.foldl_cons]
    have hstep : (match lookupAssoc cache.hashes hd.1 with
        | some oldHash => if oldHash = hd.2 then acc else acc ++ [hd.1]
        | none => acc ++ [hd.1]) = acc := by
      rw [hhd]
      simp
    rw [hstep]
    exact ih acc (fun x hx => hall x (List.mem_cons_of_mem hd hx))

/-- Claim C10 (amended): snapshot-then-diff is a fixed point for every
built SymbolGraph in which `get_all_symbols` assigns each SymbolId a
single digest (no two files of one package exporting equal-named symbols
with different hashes): `g.get_changed_symbols(g.to_cache())` is empty.
With conflicting duplicate ids (see the counterexample) it is not. -/
theorem snapshot_then_diff_fixed_point (g : SymbolGraph)
    (hfun : ∀ p ∈ get_all_symbols g, ∀ q ∈ get_all_symbols g,
      p.1 = q.1 → p.2 = q.2) :
    get_changed_symbols g (to_cache g) = [] := by
  unfold get_changed_symbols
  apply get_changed_foldl_const
  intro x hx
  obtain ⟨y, hy, hy1, hlook⟩ := lookupAssoc_foldl_of_mem (get_all_symbols g) x hx
  have hyx : y.2 = x.2 := hfun y hy x hx hy1
  rw [← hyx]
  exact hlook

/-- A duplicate-free graph: one package `q` with a single exported
symbol. -/
def demoSymbolGraphOk : SymbolGraph :=
  { consumers := [("q:g", [["q", "a.ts"]])]
    exports := [(["q", "a.ts"], [⟨"g", .function, "beef", 3⟩])]
    packages := [("q", ["q"])] }

/-- Witness for the amended C10 theorem at the concrete duplicate-free
graph `demoSymbolGraphOk`. -/
theorem snapshot_then_diff_fixed_point_witness :
    get_changed_symbols demoSymbolGraphOk (to_cache demoSymbolGraphOk) = [] :=
  snapshot_then_diff_fixed_point demoSymbolGraphOk (by decide)

end SG

/-! ## C5 and C6 — Workspace dependency graph (`neex-core/src/graph.rs`)

`DepGraph` holds the petgraph `DiGraph`: `nodes` in insertion order
(`NodeIndex` = list position) and directed `edges` recorded as
`(dependent, dependency)` index pairs, exactly the direction
`build_edges` adds them.  `petgraph::algo::toposort` is an external
dependency; its documented contract — emit every node, each node before
its successors, fail on a cycle — is realised here by Kahn's algorithm.
The fuel argument equals the number of remaining nodes, and one node is
removed per round, so the fuel-exhaustion branch is unreachable. -/

structure WorkspaceNode where
  name : String
  path : List String
  package_json_path : List String
  version : Option String
  scripts : List String
deriving DecidableEq, Repr

structure DepGraph where
  nodes : List WorkspaceNode
  edges : List (Nat × Nat)
deriving DecidableEq, Repr

/-- `name_to_idx`: built with `HashMap::insert` as nodes are added, so for
duplicate names the last-added node wins. -/
def nameToIdx (g : DepGraph) (name : String) : Option Nat :=
  (List.range g.nodes.length).reverse.find?
    (fun i => (g.nodes[i]?.map (fun n => n.name)) = some name)

/-- The next node toposort emits: the first remaining node with no
incoming edge from a remaining node. -/
def pickSource (edges : List (Nat × Nat)) (remaining : List Nat) : Option Nat :=
  remaining.find? (fun n => remaining.all (fun a => decide ((a, n) ∉ edges)))

def toposortGo (edges : List (Nat × Nat)) : Nat → List Nat → Option (List Nat)
  | _, [] => some []
  | 0, _ :: _ => none
  | fuel + 1, x :: xs =>
    match pickSource edges (x :: xs) with
    | none => none
    | some n =>
      match toposortGo edges fuel ((x :: xs).erase n) with
      | none => none
      | some rest => some (n :: rest)

/-- `petgraph::algo::toposort` over all node indices: nodes in successor
order (for an edge `a → b`, `a` before `b`), or none when cyclic. -/
def toposort (g : DepGraph) : Option (List Nat) :=
  toposortGo g.edges g.nodes.length (List.range g.nodes.length)

/-- `DepGraph::has_cycle` (graph.rs lines 213-215):
`petgraph::algo::is_cyclic_directed`, which holds exactly when toposort
fails. -/
def has_cycle (g : DepGraph) : Bool :=
  (toposort g).isNone

/-- `DepGraph::get_build_order` (graph.rs lines 219-234): error on a
cycle, otherwise the toposort reversed, so dependencies come first. -/
def get_build_order (g : DepGraph) : Option (List Nat) :=
  if has_cycle g then none
  else (toposort g).map List.reverse

theorem pickSource_spec (edges : List (Nat × Nat)) (rem : List Nat) (n : Nat)
    (h : pickSource edges rem = some n) :
    n ∈ rem ∧ ∀ a ∈ rem, (a, n) ∉ edges := by
  refine ⟨List.mem_of_find?_eq_some h, ?_⟩
  have hp := List.find?_some h
  intro a ha
  have hall := List.all_eq_true.mp hp a ha
  exact of_decide_eq_true hall

theorem toposortGo_perm (edges : List (Nat × Nat)) :
    ∀ (fuel : Nat) (rem out : List Nat), toposortGo edges fuel rem = some out →
      rem.Perm out := by
  intro fuel
  induction fuel with
  | zero =>
    intro rem out h
    cases rem with
    | nil =>
      simp only [toposortGo] at h
      cases h
      exact List.Perm.refl []
    | cons x xs =>
      simp only [toposortGo] at h
      exact Option.noConfusion h
  | succ fuel ih =>
    intro rem out h
    cases rem with
    | nil =>
      simp only [toposortGo] at h
      cases h
      exact List.Perm.refl []
    | cons x xs =>
      simp only [toposortGo] at h
      split at h
      · exact Option.noConfusion h
      · rename_i n hpick
        split at h
        · exact Option.noConfusion h
        · rename_i rest hrec
          cases h
          have hn : n ∈ x :: xs := (pickSource_spec edges (x :: xs) n hpick).1
          exact (List.perm_cons_erase hn).trans ((ih _ _ hrec).cons n)

theorem toposortGo_order (edges : List (Nat × Nat)) :
    ∀ (fuel : Nat) (rem out : List Nat), toposortGo edges fuel rem = some out →
      ∀ a b : Nat, (a, b) ∈ edges → a ∈ rem → b ∈ rem →
        List.indexOf a out < List.indexOf b out := by
  intro fuel
  induction fuel with
  | zero =>
    intro rem out h a b hab ha hb
    cases rem with
    | nil => cases ha
    | cons x xs =>
      simp only [toposortGo] at h
      exact Option.noConfusion h
  | succ fuel ih =>
    intro rem out h a b hab ha hb
    cases rem with
    | nil => cases ha
    | cons x xs =>
      simp only [toposortGo] at h
      split at h
      · exact Option.noConfusion h
      · rename_i n hpick
        split at h
        · exact Option.noConfusion h
        · rename_i rest hrec
          cases h
          have hspec := pickSource_spec edges (x :: xs) n hpick
          by_cases hbn : b = n
          · exact absurd (hbn ▸ hab) (hspec.2 a ha)
          · by_cases han : a = n
            · subst han
              rw [List.indexOf_cons_self, List.indexOf_cons_ne rest (fun hc => hbn hc.symm)]
              exact Nat.succ_pos _
            · have ha2 : a ∈ (x :: xs).erase n := (List.mem_erase_of_ne han).mpr ha
              have hb2 : b ∈ (x :: xs).erase n := (List.mem_erase_of_ne hbn).mpr hb
              have hih := ih _ _ hrec a b hab ha2 hb2
              rw [List.indexOf_cons_ne rest (fun hc => han hc.symm),
                List.indexOf_cons_ne rest (fun hc => hbn hc.symm)]
              exact Nat.succ_lt_succ hih

theorem indexOf_eq_of_getElem (l : List Nat) (hnd : l.Nodup) (k : Nat) (hk : k < l.length)
    (x : Nat) (hx : l[k] = x) : List.indexOf x l = k := by
  have hmem : x ∈ l := by rw [← hx]; exact List.getElem_mem hk
  have hlt : List.indexOf x l < l.length := List.indexOf_lt_length.mpr hmem
  have hget : l[List.indexOf x l] = x := List.getElem_indexOf hlt
  exact (hnd.getElem_inj_iff).mp (by rw [hget, hx])

theorem indexOf_reverse_eq (l : List Nat) (hnd : l.Nodup) (a : Nat) (ha : a ∈ l) :
    List.indexOf a l.reverse = l.length - 1 - List.indexOf a l := by
  have hi : List.indexOf a l < l.length := List.indexOf_lt_length.mpr ha
  have hk : l.length - 1 - List.indexOf a l < l.reverse.length := by
    rw [List.length_reverse]
    omega
  apply indexOf_eq_of_getElem l.reverse (by rwa [List.nodup_reverse]) _ hk
  rw [List.getElem_reverse]
  have harith : l.length - 1 - (l.length - 1 - List.indexOf a l) = List.indexOf a l := by
    omega
  simp only [harith]
  exact List.getElem_indexOf hi

/-- Claim C5: whenever `get_build_order` returns a sequence, every
recorded edge `D → N` (dependent to dependency) has its dependency `N`
strictly before the dependent `D`: `index_of(N) < index_of(D)`. -/
theorem build_order_deps_first (g : DepGraph) (order : List Nat)
    (h : get_build_order g = some order) (d n : Nat) (he : (d, n) ∈ g.edges)
    (hd : d < g.nodes.length) (hn : n < g.nodes.length) :
    List.indexOf n order < List.indexOf d order := by
  unfold get_build_order at h
  by_cases hcyc : has_cycle g
  · rw [if_pos hcyc] at h
    cases h
  · rw [if_neg hcyc] at h
    cases ht : toposort g with
    | none => rw [ht] at h; cases h
    | some out =>
      rw [ht] at h
      cases h
      have hperm : (List.range g.nodes.length).Perm out := toposortGo_perm _ _ _ _ ht
      have hnd : out.Nodup := hperm.nodup (List.nodup_range _)
      have hdmem : d ∈ out := hperm.mem_iff.mp (List.mem_range.mpr hd)
      have hnmem : n ∈ out := hperm.mem_iff.mp (List.mem_range.mpr hn)
      have horder := toposortGo_order _ _ _ _ ht d n he
        (List.mem_range.mpr hd) (List.mem_range.mpr hn)
      have hdlt : List.indexOf d out < out.length := List.indexOf_lt_length.mpr hdmem
      have hnlt : List.indexOf n out < out.length := List.indexOf_lt_length.mpr hnmem
      rw [indexOf_reverse_eq out hnd d hdmem, indexOf_reverse_eq out hnd n hnmem]
      omega

/-- The three-package demo workspace: `ui` depends on `utils`, `web` on
`ui` and `utils`. -/
def demoGraph : DepGraph :=
  { nodes := [⟨"utils", ["packages", "utils"], ["packages", "utils", "package.json"],
                none, ["build"]⟩,
              ⟨"ui", ["packages", "ui"], ["packages", "ui", "package.json"],
                none, ["build"]⟩,
              ⟨"web", ["packages", "web"], ["packages", "web", "package.json"],
                none, ["build"]⟩]
    edges := [(1, 0), (2, 1), (2, 0)] }

/-- Witness for C5 at the demo workspace: the build order is
`[utils, ui, web]` and the edge `ui → utils` has `utils` first. -/
theorem build_order_deps_first_witness :
    List.indexOf 0 [(0 : Nat), 1, 2] < List.indexOf 1 [(0 : Nat), 1, 2] :=
  build_order_deps_first demoGraph [0, 1, 2] (by decide) 1 0 (by decide) (by decide)
    (by decide)

/-! ### C6 — `DepGraph::get_affected` (graph.rs lines 237-260)

The loop keeps a visited set, a work stack and the collected result; each
round pops an index and pushes its not-yet-visited incoming neighbours
(the dependents) onto all three.  `incomingFresh` is one round's batch of
newly visited neighbours: `neighbors_directed(idx, Incoming)` deduplicated
(the sequential `visited.insert` admits each neighbour once) and filtered
to the unvisited.  Fuel counts loop rounds; each round either empties the
stack by one or freshly visits nodes, so
`|unvisited edge sources| + |stack|` bounds the rounds and the
fuel-exhaustion branch is unreachable from `get_affected`'s entry
state. -/

def incomingFresh (edges : List (Nat × Nat)) (visited : List Nat) (idx : Nat) : List Nat :=
  (((edges.filter (fun e => e.2 = idx)).map (fun e => e.1)).dedup).filter
    (fun m => decide (m ∉ visited))

def affectedGo (edges : List (Nat × Nat)) : Nat → List Nat → List Nat → List Nat → List Nat
  | _, _, [], affected => affected
  | 0, _, _ :: _, affected => affected
  | fuel + 1, visited, idx :: rest, affected =>
    affectedGo edges fuel (visited ++ incomingFresh edges visited idx)
      (incomingFresh edges visited idx ++ rest)
      (affected ++ incomingFresh edges visited idx)

def unvisitedCount (edges : List (Nat × Nat)) (visited : List Nat) : Nat :=
  ((edges.map (fun e => e.1)).toFinset \ visited.toFinset).card

def affectedFuel (edges : List (Nat × Nat)) : Nat :=
  (edges.map (fun e => e.1)).toFinset.card + 1

/-- `DepGraph::get_affected`: an unknown package name yields the empty
list; otherwise the worklist starts from the package's node index with
the start node itself visited and collected.  The result lists node
indices (the source returns the nodes at those indices). -/
def get_affected (g : DepGraph) (packageName : String) : List Nat :=
  match nameToIdx g packageName with
  | none => []
  | some start => affectedGo g.edges (affectedFuel g.edges) [start] [start] [start]

/-- One step along a recorded edge: `a` depends on `b`. -/
def EdgeStep (edges : List (Nat × Nat)) (a b : Nat) : Prop :=
  (a, b) ∈ edges

/-- `a` reaches `b` along forward (dependent → dependency) edges. -/
def Reaches (edges : List (Nat × Nat)) (a b : Nat) : Prop :=
  Relation.ReflTransGen (EdgeStep edges) a b

theorem incomingFresh_spec (edges : List (Nat × Nat)) (visited : List Nat) (idx m : Nat) :
    m ∈ incomingFresh edges visited idx ↔ ((m, idx) ∈ edges ∧ m ∉ visited) := by
  unfold incomingFresh
  rw [List.mem_filter, List.mem_dedup, List.mem_map]
  constructor
  · rintro ⟨⟨e, hef, he1⟩, hnv⟩
    have hmem := List.mem_filter.mp hef
    have he2 : e.2 = idx := by
      have := hmem.2
      simpa using this
    refine ⟨?_, by simpa using hnv⟩
    have : e = (m, idx) := by
      cases e
      simp only at he1 he2
      rw [he1, he2]
    rw [← this]
    exact hmem.1
  · rintro ⟨hme, hnv⟩
    refine ⟨⟨(m, idx), List.mem_filter.mpr ⟨hme, by simp⟩, rfl⟩, by simpa using hnv⟩

theorem incomingFresh_nodup (edges : List (Nat × Nat)) (visited : List Nat) (idx : Nat) :
    (incomingFresh edges visited idx).Nodup :=
  (List.nodup_dedup _).filter _

theorem unvisitedCount_step (edges : List (Nat × Nat)) (visited : List Nat) (idx : Nat) :
    unvisitedCount edges (visited ++ incomingFresh edges visited idx)
      + (incomingFresh edges visited idx).length = unvisitedCount edges visited := by
  have hnodup := incomingFresh_nodup edges visited idx
  have hsub : (incomingFresh edges visited idx).toFinset
      ⊆ (edges.map (fun e => e.1)).toFinset \ visited.toFinset := by
    intro x hx
    rw [List.mem_toFinset] at hx
    have hspec := (incomingFresh_spec edges visited idx x).mp hx
    rw [Finset.mem_sdiff, List.mem_toFinset, List.mem_toFinset]
    exact ⟨List.mem_map.mpr ⟨(x, idx), hspec.1, rfl⟩, hspec.2⟩
  have hcard : (incomingFresh edges visited idx).toFinset.card
      = (incomingFresh edges visited idx).length := List.toFinset_card_of_nodup hnodup
  have hsd : ((edges.map (fun e => e.1)).toFinset \ visited.toFinset)
        \ (incomingFresh edges visited idx).toFinset
      = (edges.map (fun e => e.1)).toFinset
        \ (visited.toFinset ∪ (incomingFresh edges visited idx).toFinset) := by
    ext x
    simp only [Finset.mem_sdiff, Finset.mem_union]
    tauto
  have hle := Finset.card_le_card hsub
  unfold unvisitedCount
  rw [List.toFinset_append, ← hsd, Finset.card_sdiff hsub, hcard]
  omega

theorem affectedGo_spec (edges : List (Nat × Nat)) :
    ∀ (fuel : Nat) (visited queue affected : List Nat),
      (∀ x ∈ queue, x ∈ visited) →
      (∀ x : Nat, x ∈ visited ↔ x ∈ affected) →
      (∀ v ∈ visited, v ∈ queue ∨ ∀ m : Nat, (m, v) ∈ edges → m ∈ visited) →
      unvisitedCount edges visited + queue.length ≤ fuel →
      (∀ x ∈ affected, x ∈ affectedGo edges fuel visited queue affected)
      ∧ (∀ v ∈ affectedGo edges fuel visited queue affected,
          ∀ m : Nat, (m, v) ∈ edges → m ∈ affectedGo edges fuel visited queue affected) := by
  intro fuel
  induction fuel with
  | zero =>
    intro visited queue affected hq hva hclosed hfuel
    cases queue with
    | nil =>
      simp only [affectedGo]
      refine ⟨fun x hx => hx, ?_⟩
      intro v hv m hm
      have hvv : v ∈ visited := (hva v).mpr hv
      rcases hclosed v hvv with hq0 | hcl
      · cases hq0
      · exact (hva m).mp (hcl m hm)
    | cons idx rest =>
      exfalso
      simp only [List.length_cons] at hfuel
      omega
  | succ fuel ih =>
    intro visited queue affected hq hva hclosed hfuel
    cases queue with
    | nil =>
      simp only [affectedGo]
      refine ⟨fun x hx => hx, ?_⟩
      intro v hv m hm
      have hvv : v ∈ visited := (hva v).mpr hv
      rcases hclosed v hvv with hq0 | hcl
      · cases hq0
      · exact (hva m).mp (hcl m hm)
    | cons idx rest =>
      simp only [affectedGo]
      have hq2 : ∀ x ∈ incomingFresh edges visited idx ++ rest,
          x ∈ visited ++ incomingFresh edges visited idx := by
        intro x hx
        rcases List.mem_append.mp hx with hf | hr
        · exact List.mem_append_right _ hf
        · exact List.mem_append_left _ (hq x (List.mem_cons_of_mem idx hr))
      have hva2 : ∀ x : Nat, x ∈ visited ++ incomingFresh edges visited idx
          ↔ x ∈ affected ++ incomingFresh edges visited idx := by
        intro x
        rw [List.mem_append, List.mem_append, hva x]
      have hclosed2 : ∀ v ∈ visited ++ incomingFresh edges visited idx,
          v ∈ incomingFresh edges visited idx ++ rest
          ∨ ∀ m : Nat, (m, v) ∈ edges → m ∈ visited ++ incomingFresh edges visited idx := by
        intro v hv
        rcases List.mem_append.mp hv with hvis | hfr
        · rcases hclosed v hvis with hq0 | hcl
          · rcases List.mem_cons.mp hq0 with hveq | hrest
            · right
              intro m hm
              by_cases hmv : m ∈ visited
              · exact List.mem_append_left _ hmv
              · refine List.mem_append_right _
                  ((incomingFresh_spec edges visited idx m).mpr ⟨?_, hmv⟩)
                rw [← hveq]
                exact hm
            · left
              exact List.mem_append_right _ hrest
          · right
            intro m hm
            exact List.mem_append_left _ (hcl m hm)
        · left
          exact List.mem_append_left _ hfr
      have hfuel2 : unvisitedCount edges (visited ++ incomingFresh edges visited idx)
          + (incomingFresh edges visited idx ++ rest).length ≤ fuel := by
        have hstep := unvisitedCount_step edges visited idx
        simp only [List.length_append, List.length_cons] at hfuel ⊢
        omega
      have hrec := ih (visited ++ incomingFresh edges visited idx)
        (incomingFresh edges visited idx ++ rest)
        (affected ++ incomingFresh edges visited idx) hq2 hva2 hclosed2 hfuel2
      refine ⟨?_, hrec.2⟩
      intro x hx
      exact hrec.1 x (List.mem_append_left _ hx)

theorem affectedGo_sound (edges : List (Nat × Nat)) (target : Nat) :
    ∀ (fuel : Nat) (visited queue affected : List Nat),
      (∀ x ∈ queue, Reaches edges x target) →
      (∀ x ∈ affected, Reaches edges x target) →
      ∀ x ∈ affectedGo edges fuel visited queue affected, Reaches edges x target := by
  intro fuel
  induction fuel with
  | zero =>
    intro visited queue affected hq ha x hx
    cases queue with
    | nil => exact ha x hx
    | cons idx rest => exact ha x hx
  | succ fuel ih =>
    intro visited queue affected hq ha x hx
    cases queue with
    | nil => exact ha x hx
    | cons idx rest =>
      simp only [affectedGo] at hx
      have hfreshReach : ∀ m ∈ incomingFresh edges visited idx, Reaches edges m target := by
        intro m hm
        have hedge : EdgeStep edges m idx :=
          ((incomingFresh_spec edges visited idx m).mp hm).1
        exact Relation.ReflTransGen.head hedge (hq idx (List.mem_cons_self idx rest))
      refine ih _ _ _ ?_ ?_ x hx
      · intro y hy
        rcases List.mem_append.mp hy with hf | hr
        · exact hfreshReach y hf
        · exact hq y (List.mem_cons_of_mem idx hr)
      · intro y hy
        rcases List.mem_append.mp hy with haf | hf
        · exact ha y haf
        · exact hfreshReach y hf

/-- Claim C6: for a package present in the graph (`name_to_idx` resolves
it to node index `start`), `get_affected` returns exactly the
reflexive–transitive closure of `start` under reverse edges: node `j` is
in the result iff `j` reaches `start` along forward
(dependent → dependency) edges — in particular `start` itself is
included, and nothing else is. -/
theorem get_affected_is_reverse_closure (g : DepGraph) (name : String) (start : Nat)
    (h : nameToIdx g name = some start) (j : Nat) :
    j ∈ get_affected g name ↔ Reaches g.edges j start := by
  unfold get_affected
  rw [h]
  have hsingle : ∀ x ∈ ([start] : List Nat), Reaches g.edges x start := by
    intro x hx
    rw [List.mem_singleton] at hx
    rw [hx]
    exact Relation.ReflTransGen.refl
  have hfuelinit : unvisitedCount g.edges [start] + ([start] : List Nat).length
      ≤ affectedFuel g.edges := by
    unfold unvisitedCount affectedFuel
    have hle : ((g.edges.map (fun e => e.1)).toFinset \ ([start] : List Nat).toFinset).card
        ≤ (g.edges.map (fun e => e.1)).toFinset.card :=
      Finset.card_le_card (Finset.sdiff_subset)
    simp only [List.length_singleton]
    omega
  have hspec := affectedGo_spec g.edges (affectedFuel g.edges) [start] [start] [start]
    (fun x hx => hx) (fun x => Iff.rfl)
    (fun v hv => Or.inl hv) hfuelinit
  constructor
  · intro hj
    exact affectedGo_sound g.edges start _ _ _ _ hsingle hsingle j hj
  · intro hreach
    induction hreach using Relation.ReflTransGen.head_induction_on with
    | refl => exact hspec.1 start (List.mem_singleton_self start)
    | head hedge htail htih => exact hspec.2 _ htih _ hedge

/-- Witness for C6 at the demo workspace: `web` (index 2) is in
`affected("utils")` because `web → utils`, matching the closure. -/
theorem get_affected_is_reverse_closure_witness :
    (2 : Nat) ∈ get_affected demoGraph "utils" ↔ Reaches demoGraph.edges 2 0 :=
  get_affected_is_reverse_closure demoGraph "utils" 0 (by decide) 2

/-! ## C1, C8, C9 — Parallel scheduler (`neex-core/src/scheduler.rs`)

`Scheduler::execute` spawns one tokio task per scheduler task; the
spawned futures and the main receive loop interleave.  The embedding is a
small-step transition system over the shared state: the `pending_tasks`
map (its key set), the `completed` set, the `failed` flag, the semaphore
permit count, the in-flight futures (each with the program point it has
reached inside `spawn_task`), and the published results.  A task's thunk
is opaque side-effecting code, so only its outcome (`Ok` or an error
message, a panic also yielding an error) is part of the task datum.
Durations are wall-clock values irrelevant to the claims and are
omitted. -/

inductive TaskStatus where
  | pending
  | running
  | completed
  | failed
  | cancelled
deriving DecidableEq, Repr

structure TaskResult where
  name : String
  status : TaskStatus
  error : Option String
deriving DecidableEq, Repr

deriving instance DecidableEq for Except

structure SchedulerTask where
  name : String
  dependencies : List String
  outcome : Except String Unit
deriving DecidableEq, Repr

/-- `dep_map` / `pending_tasks` lookup: `HashMap::insert` is applied in
task order, so for duplicate names the last task wins. -/
def findTask (tasks : List SchedulerTask) (name : String) : Option SchedulerTask :=
  tasks.reverse.find? (fun t => t.name = name)

/-- The deduplicated `dep_map` entries (key set of the HashMap). -/
def depMapEntries (tasks : List SchedulerTask) : List (String × List String) :=
  tasks.foldl (fun m t => insertAssoc m t.name t.dependencies) []

/-- Scheduler lines 111-115: the initial ready set — tasks whose
dependency list is empty. -/
def initialReady (tasks : List SchedulerTask) : List String :=
  ((depMapEntries tasks).filter (fun nd => nd.2.isEmpty)).map (fun nd => nd.1)

/-- Scheduler lines 157-170: the ready recomputation — pending tasks
whose declared dependencies are ALL contained in the completed set.  A
name enters `completed` only when a task of that name succeeds, so a
dependency name matching no input task is never satisfied: there is no
tolerant treatment of unknown names in the code. -/
def readyTasks (depMap : List (String × List String)) (pending completed : List String) :
    List String :=
  pending.filter (fun name =>
    match lookupAssoc depMap name with
    | some deps => deps.all (fun d => decide (d ∈ completed))
    | none => false)

/-- A task whose declared dependency `ghost` matches no task in the input
set. -/
def ghostTask : SchedulerTask :=
  { name := "A", dependencies := ["ghost"], outcome := .ok () }

/-- Claim C1 counterexample: with the single-task input `[ghostTask]`,
the task `A` is not in the initial ready set, and the recomputed ready
set is empty for every reachable completed set (`{}` and `{A}` are the
only subsets of the input names): a task with an unknown dependency never
becomes ready, so it is never dispatched — the code is strict, not
tolerant. -/
theorem unknown_dep_never_ready :
    initialReady [ghostTask] = []
    ∧ readyTasks (depMapEntries [ghostTask]) ["A"] [] = []
    ∧ readyTasks (depMapEntries [ghostTask]) ["A"] ["A"] = [] := by
  exact ⟨rfl, rfl, rfl⟩

/-- The result published on the fail-fast cancellation path
(scheduler.rs lines 223-233). -/
def cancelledResult (name : String) : TaskResult :=
  { name := name, status := .cancelled, error := some "Cancelled due to earlier failure" }

/-- The result computed from the thunk outcome (scheduler.rs lines
255-259); a panic is also an error message. -/
def finishedResult (name : String) (outcome : Except String Unit) : TaskResult :=
  match outcome with
  | .ok _ => { name := name, status := .completed, error := none }
  | .error e => { name := name, status := .failed, error := some e }

/-- Program points of an in-flight `spawn_task` future: freshly spawned
(before the fail-fast check), past the check (awaiting the semaphore),
holding a permit (before taking the task from `pending_tasks`), and
executing the thunk on the blocking pool (still holding the permit). -/
inductive Phase where
  | spawned
  | checked
  | acquired
  | running (outcome : Except String Unit)
deriving DecidableEq, Repr

structure SchedState where
  pending : List String
  completed : List String
  failed : Bool
  available : Nat
  inflight : List (String × Phase)
  results : List TaskResult
deriving DecidableEq, Repr

structure SchedConfig where
  tasks : List SchedulerTask
  concurrency : Nat
  failFast : Bool

/-- Scheduler lines 92-119: a fresh semaphore with `concurrency` permits,
all tasks pending, empty completed set and failed flag down. -/
def initState (cfg : SchedConfig) : SchedState :=
  { pending := cfg.tasks.map (fun t => t.name)
    completed := []
    failed := false
    available := cfg.concurrency
    inflight := []
    results := [] }

/-- One interleaving step of `Scheduler::execute`.  `spawn` covers both
dispatch sites (lines 121-132 and 173-184): the initial ready tasks have
empty dependency lists, so one guard — every declared dependency is in
`completed` — covers both, and allowing a spawn at any such moment only
widens the set of schedules.  The remaining constructors follow
`spawn_task` (lines 221-274) point by point, and `mainFail` is the
receive loop setting the failed flag (lines 146-148). -/
inductive Step (cfg : SchedConfig) : SchedState → SchedState → Prop where
  | spawn (s : SchedState) (name : String)
      (hpend : name ∈ s.pending)
      (hready : ∃ t, findTask cfg.tasks name = some t
        ∧ ∀ d ∈ t.dependencies, d ∈ s.completed) :
      Step cfg s { s with inflight := (name, Phase.spawned) :: s.inflight }
  | cancelEmit (s : SchedState) (name : String) (l1 l2 : List (String × Phase))
      (hff : cfg.failFast = true) (hfail : s.failed = true)
      (hin : s.inflight = l1 ++ (name, Phase.spawned) :: l2) :
      Step cfg s { s with inflight := l1 ++ l2,
                          results := s.results ++ [cancelledResult name] }
  | checkPass (s : SchedState) (name : String) (l1 l2 : List (String × Phase))
      (hok : cfg.failFast = false ∨ s.failed = false)
      (hin : s.inflight = l1 ++ (name, Phase.spawned) :: l2) :
      Step cfg s { s with inflight := l1 ++ (name, Phase.checked) :: l2 }
  | acquire (s : SchedState) (name : String) (l1 l2 : List (String × Phase))
      (hav : 0 < s.available)
      (hin : s.inflight = l1 ++ (name, Phase.checked) :: l2) :
      Step cfg s { s with available := s.available - 1,
                          inflight := l1 ++ (name, Phase.acquired) :: l2 }
  | takeTask (s : SchedState) (name : String) (t : SchedulerTask)
      (l1 l2 : List (String × Phase))
      (hin : s.inflight = l1 ++ (name, Phase.acquired) :: l2)
      (hpend : name ∈ s.pending)
      (ht : findTask cfg.tasks name = some t) :
      Step cfg s { s with pending := s.pending.erase name,
                          inflight := l1 ++ (name, Phase.running t.outcome) :: l2 }
  | takeNone (s : SchedState) (name : String) (l1 l2 : List (String × Phase))
      (hin : s.inflight = l1 ++ (name, Phase.acquired) :: l2)
      (hnp : name ∉ s.pending) :
      Step cfg s { s with available := s.available + 1, inflight := l1 ++ l2 }
  | finish (s : SchedState) (name : String) (outcome : Except String Unit)
      (l1 l2 : List (String × Phase))
      (hin : s.inflight = l1 ++ (name, Phase.running outcome) :: l2) :
      Step cfg s { s with
        available := s.available + 1,
        inflight := l1 ++ l2,
        completed := if (finishedResult name outcome).status = TaskStatus.completed
                     then s.completed ++ [name] else s.completed,
        results := s.results ++ [finishedResult name outcome] }
  | mainFail (s : SchedState)
      (hff : cfg.failFast = true)
      (hres : ∃ r ∈ s.results, r.status = TaskStatus.failed) :
      Step cfg s { s with failed := true }

inductive Reachable (cfg : SchedConfig) : SchedState → Prop where
  | init : Reachable cfg (initState cfg)
  | step {s s2 : SchedState} : Reachable cfg s → Step cfg s s2 → Reachable cfg s2

/-- A phase that holds one of the semaphore's permits. -/
def holdsPermit : Phase → Bool
  | Phase.acquired => true
  | Phase.running _ => true
  | _ => false

def isRunningPhase : Phase → Bool
  | Phase.running _ => true
  | _ => false

def permitHolders (s : SchedState) : Nat :=
  (s.inflight.filter (fun e => holdsPermit e.2)).length

def runningCount (s : SchedState) : Nat :=
  (s.inflight.filter (fun e => isRunningPhase e.2)).length

def inflightPermits (l : List (String × Phase)) : Nat :=
  (l.filter (fun e => holdsPermit e.2)).length

theorem filterlen_append_cons {α : Type} (p : α → Bool) (l1 l2 : List α) (x : α) :
    ((l1 ++ x :: l2).filter p).length
      = ((l1 ++ l2).filter p).length + (if p x = true then 1 else 0) := by
  rw [List.filter_append, List.filter_append, List.length_append, List.length_append]
  by_cases hp : p x = true
  · rw [List.filter_cons_of_pos hp, if_pos hp]
    simp only [List.length_cons]
    omega
  · rw [List.filter_cons_of_neg hp, if_neg hp]
    omega

theorem length_filter_mono {α : Type} (l : List α) (p q : α → Bool)
    (h : ∀ x ∈ l, p x = true → q x = true) :
    (l.filter p).length ≤ (l.filter q).length := by
  induction l with
  | nil => exact Nat.le_refl 0
  | cons hd tl ih =>
    have ihtl := ih (fun x hx => h x (List.mem_cons_of_mem hd hx))
    by_cases hp : p hd = true
    · rw [List.filter_cons_of_pos hp,
        List.filter_cons_of_pos (h hd (List.mem_cons_self hd tl) hp)]
      simp only [List.length_cons]
      omega
    · rw [List.filter_cons_of_neg hp]
      by_cases hq : q hd = true
      · rw [List.filter_cons_of_pos hq]
        simp only [List.length_cons]
        omega
      · rw [List.filter_cons_of_neg hq]
        exact ihtl

/-- Semaphore invariant: available permits plus held permits always equal
the configured concurrency. -/
theorem inflightPermits_append_cons (l1 l2 : List (String × Phase)) (x : String × Phase) :
    inflightPermits (l1 ++ x :: l2)
      = inflightPermits (l1 ++ l2) + (if holdsPermit x.2 = true then 1 else 0) :=
  filterlen_append_cons _ l1 l2 x

theorem reachable_permits (cfg : SchedConfig) (s : SchedState) (h : Reachable cfg s) :
    s.available + permitHolders s = cfg.concurrency := by
  induction h with
  | init =>
    show cfg.concurrency + inflightPermits [] = cfg.concurrency
    rfl
  | step hreach hstep ih =>
    rename_i s s2
    cases hstep with
    | spawn name hpend hready =>
      show s.available + inflightPermits ((name, Phase.spawned) :: s.inflight)
        = cfg.concurrency
      have hstep1 : inflightPermits ((name, Phase.spawned) :: s.inflight)
          = inflightPermits s.inflight := by
        unfold inflightPermits
        rw [List.filter_cons_of_neg (by simp [holdsPermit])]
      rw [hstep1]
      exact ih
    | cancelEmit name l1 l2 hff hfail hin =>
      show s.available + inflightPermits (l1 ++ l2) = cfg.concurrency
      have ih2 : s.available + inflightPermits (l1 ++ (name, Phase.spawned) :: l2)
          = cfg.concurrency := by
        rw [← hin]
        exact ih
      rw [inflightPermits_append_cons] at ih2
      simp [holdsPermit] at ih2
      omega
    | checkPass name l1 l2 hok hin =>
      show s.available + inflightPermits (l1 ++ (name, Phase.checked) :: l2)
        = cfg.concurrency
      have ih2 : s.available + inflightPermits (l1 ++ (name, Phase.spawned) :: l2)
          = cfg.concurrency := by
        rw [← hin]
        exact ih
      rw [inflightPermits_append_cons] at ih2 ⊢
      simp [holdsPermit] at ih2 ⊢
      omega
    | acquire name l1 l2 hav hin =>
      show s.available - 1 + inflightPermits (l1 ++ (name, Phase.acquired) :: l2)
        = cfg.concurrency
      have ih2 : s.available + inflightPermits (l1 ++ (name, Phase.checked) :: l2)
          = cfg.concurrency := by
        rw [← hin]
        exact ih
      rw [inflightPermits_append_cons] at ih2 ⊢
      simp [holdsPermit] at ih2 ⊢
      omega
    | takeTask name t l1 l2 hin hpend ht =>
      show s.available + inflightPermits (l1 ++ (name, Phase.running t.outcome) :: l2)
        = cfg.concurrency
      have ih2 : s.available + inflightPermits (l1 ++ (name, Phase.acquired) :: l2)
          = cfg.concurrency := by
        rw [← hin]
        exact ih
      rw [inflightPermits_append_cons] at ih2 ⊢
      simp [holdsPermit] at ih2 ⊢
      omega
    | takeNone name l1 l2 hin hnp =>
      show s.available + 1 + inflightPermits (l1 ++ l2) = cfg.concurrency
      have ih2 : s.available + inflightPermits (l1 ++ (name, Phase.acquired) :: l2)
          = cfg.concurrency := by
        rw [← hin]
        exact ih
      rw [inflightPermits_append_cons] at ih2
      simp [holdsPermit] at ih2
      omega
    | finish name outcome l1 l2 hin =>
      show s.available + 1 + inflightPermits (l1 ++ l2) = cfg.concurrency
      have ih2 : s.available + inflightPermits (l1 ++ (name, Phase.running outcome) :: l2)
          = cfg.concurrency := by
        rw [← hin]
        exact ih
      rw [inflightPermits_append_cons] at ih2
      simp [holdsPermit] at ih2
      omega
    | mainFail hff hres =>
      exact ih

/-- Claim C8: in every reachable scheduler state, at most
`max_parallelism` thunks are actively executing, because a thunk runs
only between semaphore acquisition and release: the executing count is
bounded by the held-permit count, and held plus available permits equal
the configured concurrency. -/
theorem scheduler_concurrency_bound (cfg : SchedConfig) (s : SchedState)
    (h : Reachable cfg s) :
    runningCount s ≤ cfg.concurrency
    ∧ s.available + permitHolders s = cfg.concurrency := by
  have hperm := reachable_permits cfg s h
  have hmono : runningCount s ≤ permitHolders s := by
    apply length_filter_mono
    intro e hmem hrun
    cases hph : e.2 with
    | running o => simp [holdsPermit]
    | spawned => rw [hph] at hrun; simp [isRunningPhase] at hrun
    | checked => rw [hph] at hrun; simp [isRunningPhase] at hrun
    | acquired => simp [holdsPermit]
  exact ⟨by omega, hperm⟩

def goodResult (r : TaskResult) : Prop :=
  (r.status = TaskStatus.completed ∨ r.status = TaskStatus.failed
    ∨ r.status = TaskStatus.cancelled)
  ∧ (r.error = none ↔ r.status = TaskStatus.completed)

/-- Claim C9: every result the scheduler publishes is Completed, Failed
or Cancelled — never the transient Pending or Running — and its error
field is none exactly for Completed results (so Failed and Cancelled
carry an error message). -/
theorem scheduler_results_good (cfg : SchedConfig) (s : SchedState)
    (h : Reachable cfg s) :
    ∀ r ∈ s.results, (r.status = TaskStatus.completed ∨ r.status = TaskStatus.failed
      ∨ r.status = TaskStatus.cancelled)
      ∧ (r.error = none ↔ r.status = TaskStatus.completed) := by
  induction h with
  | init =>
    intro r hr
    rw [show (initState cfg).results = [] from rfl] at hr
    cases hr
  | step hreach hstep ih =>
    rename_i s s2
    cases hstep with
    | spawn name hpend hready => exact ih
    | cancelEmit name l1 l2 hff hfail hin =>
      intro r hr
      rcases List.mem_append.mp hr with hold | hnew
      · exact ih r hold
      · rw [List.mem_singleton] at hnew
        subst hnew
        refine ⟨Or.inr (Or.inr rfl), ?_⟩
        simp [cancelledResult]
    | checkPass name l1 l2 hok hin => exact ih
    | acquire name l1 l2 hav hin => exact ih
    | takeTask name t l1 l2 hin hpend ht => exact ih
    | takeNone name l1 l2 hin hnp => exact ih
    | finish name outcome l1 l2 hin =>
      intro r hr
      rcases List.mem_append.mp hr with hold | hnew
      · exact ih r hold
      · rw [List.mem_singleton] at hnew
        subst hnew
        cases outcome with
        | ok u => exact ⟨Or.inl rfl, by simp [finishedResult]⟩
        | error e => exact ⟨Or.inr (Or.inl rfl), by simp [finishedResult]⟩
    | mainFail hff hres => exact ih

/-- Names invariant: pending, completed and in-flight names all come from
the input task set. -/
theorem reachable_names (cfg : SchedConfig) (s : SchedState) (h : Reachable cfg s) :
    (∀ x ∈ s.pending, x ∈ cfg.tasks.map (fun t => t.name))
    ∧ (∀ x ∈ s.completed, x ∈ cfg.tasks.map (fun t => t.name))
    ∧ (∀ e ∈ s.inflight, e.1 ∈ cfg.tasks.map (fun t => t.name)) := by
  induction h with
  | init =>
    refine ⟨fun x hx => hx, ?_, ?_⟩
    · intro x hx
      rw [show (initState cfg).completed = [] from rfl] at hx
      cases hx
    · intro e he
      rw [show (initState cfg).inflight = [] from rfl] at he
      cases he
  | step hreach hstep ih =>
    rename_i s s2
    obtain ⟨ihp, ihc, ihin⟩ := ih
    cases hstep with
    | spawn name hpend hready =>
      refine ⟨ihp, ihc, ?_⟩
      intro e he
      rcases List.mem_cons.mp he with heq | htail
      · rw [heq]
        exact ihp name hpend
      · exact ihin e htail
    | cancelEmit name l1 l2 hff hfail hin =>
      refine ⟨ihp, ihc, ?_⟩
      intro e he
      apply ihin
      rw [hin]
      rcases List.mem_append.mp he with h1 | h2
      · exact List.mem_append_left _ h1
      · exact List.mem_append_right _ (List.mem_cons_of_mem _ h2)
    | checkPass name l1 l2 hok hin =>
      refine ⟨ihp, ihc, ?_⟩
      intro e he
      rcases List.mem_append.mp he with h1 | h2
      · exact ihin e (by rw [hin]; exact List.mem_append_left _ h1)
      · rcases List.mem_cons.mp h2 with heq | h3
        · rw [heq]
          exact ihin (name, Phase.spawned) (by rw [hin]; exact List.mem_append_right _ (List.mem_cons_self _ _))
        · exact ihin e (by rw [hin]; exact List.mem_append_right _ (List.mem_cons_of_mem _ h3))
    | acquire name l1 l2 hav hin =>
      refine ⟨ihp, ihc, ?_⟩
      intro e he
      rcases List.mem_append.mp he with h1 | h2
      · exact ihin e (by rw [hin]; exact List.mem_append_left _ h1)
      · rcases List.mem_cons.mp h2 with heq | h3
        · rw [heq]
          exact ihin (name, Phase.checked) (by rw [hin]; exact List.mem_append_right _ (List.mem_cons_self _ _))
        · exact ihin e (by rw [hin]; exact List.mem_append_right _ (List.mem_cons_of_mem _ h3))
    | takeTask name t l1 l2 hin hpend ht =>
      refine ⟨?_, ihc, ?_⟩
      · intro x hx
        exact ihp x (List.mem_of_mem_erase hx)
      · intro e he
        rcases List.mem_append.mp he with h1 | h2
        · exact ihin e (by rw [hin]; exact List.mem_append_left _ h1)
        · rcases List.mem_cons.mp h2 with heq | h3
          · rw [heq]
            exact ihin (name, Phase.acquired) (by rw [hin]; exact List.mem_append_right _ (List.mem_cons_self _ _))
          · exact ihin e (by rw [hin]; exact List.mem_append_right _ (List.mem_cons_of_mem _ h3))
    | takeNone name l1 l2 hin hnp =>
      refine ⟨ihp, ihc, ?_⟩
      intro e he
      apply ihin
      rw [hin]
      rcases List.mem_append.mp he with h1 | h2
      · exact List.mem_append_left _ h1
      · exact List.mem_append_right _ (List.mem_cons_of_mem _ h2)
    | finish name outcome l1 l2 hin =>
      refine ⟨ihp, ?_, ?_⟩
      · intro x hx
        by_cases hcond : (finishedResult name outcome).status = TaskStatus.completed
        · rw [if_pos hcond] at hx
          rcases List.mem_append.mp hx with h1 | h2
          · exact ihc x h1
          · rw [List.mem_singleton] at h2
            rw [h2]
            exact ihin (name, Phase.running outcome)
              (by rw [hin]; exact List.mem_append_right _ (List.mem_cons_self _ _))
        · rw [if_neg hcond] at hx
          exact ihc x hx
      · intro e he
        apply ihin
        rw [hin]
        rcases List.mem_append.mp he with h1 | h2
        · exact List.mem_append_left _ h1
        · exact List.mem_append_right _ (List.mem_cons_of_mem _ h2)
    | mainFail hff hres =>
      exact ⟨ihp, ihc, ihin⟩

theorem findTask_of_nodup (tasks : List SchedulerTask) (t : SchedulerTask)
    (ht : t ∈ tasks) (hnd : (tasks.map (fun x => x.name)).Nodup) :
    findTask tasks t.name = some t := by
  unfold findTask
  have hmem : t ∈ tasks.reverse := List.mem_reverse.mpr ht
  have hsome : (tasks.reverse.find? (fun x => x.name = t.name)).isSome := by
    rw [List.find?_isSome]
    exact ⟨t, hmem, by simp⟩
  cases hfind : tasks.reverse.find? (fun x => x.name = t.name) with
  | none =>
    rw [hfind] at hsome
    simp at hsome
  | some u =>
    have hu : u ∈ tasks := List.mem_reverse.mp (List.mem_of_find?_eq_some hfind)
    have hname : u.name = t.name := by simpa using List.find?_some hfind
    have hut : u = t := List.inj_on_of_nodup_map hnd hu ht hname
    rw [hut]

/-- Claim C1 (amended): the scheduler is strict, not tolerant — for a
task set with distinct names, a task declaring a dependency that matches
no task in the input is NEVER treated as satisfied: in every reachable
state of `Scheduler::execute` that task is still in the pending map, has
never been spawned, and has published no result.  (Both dispatch sites
require every declared dependency to be in `completed`, and `completed`
only ever holds input task names.) -/
theorem unknown_dep_stays_pending (cfg : SchedConfig) (t : SchedulerTask)
    (ht : t ∈ cfg.tasks) (d : String) (hd : d ∈ t.dependencies)
    (hdunk : d ∉ cfg.tasks.map (fun x => x.name))
    (hnodup : (cfg.tasks.map (fun x => x.name)).Nodup)
    (s : SchedState) (h : Reachable cfg s) :
    t.name ∈ s.pending
    ∧ (∀ ph : Phase, (t.name, ph) ∉ s.inflight)
    ∧ (∀ r ∈ s.results, r.name ≠ t.name) := by
  induction h with
  | init =>
    refine ⟨List.mem_map.mpr ⟨t, ht, rfl⟩, ?_, ?_⟩
    · intro ph hin
      rw [show (initState cfg).inflight = [] from rfl] at hin
      cases hin
    · intro r hr
      rw [show (initState cfg).results = [] from rfl] at hr
      cases hr
  | step hreach hstep ih =>
    rename_i s s2
    obtain ⟨ihp, ihin, ihres⟩ := ih
    have hnames := reachable_names cfg s hreach
    cases hstep with
    | spawn name hpend hready =>
      have hne : name ≠ t.name := by
        intro heq
        obtain ⟨t2, hft, hdeps⟩ := hready
        rw [heq, findTask_of_nodup cfg.tasks t ht hnodup] at hft
        have ht2 : t2 = t := by
          injection hft with hft2
          exact hft2.symm
        rw [ht2] at hdeps
        exact hdunk (hnames.2.1 d (hdeps d hd))
      refine ⟨ihp, ?_, ihres⟩
      intro ph hin
      rcases List.mem_cons.mp hin with heq | htail
      · have : t.name = name := congrArg Prod.fst heq
        exact hne this.symm
      · exact ihin ph htail
    | cancelEmit name l1 l2 hff hfail hin =>
      have hmid : (name, Phase.spawned) ∈ s.inflight := by
        rw [hin]
        exact List.mem_append_right _ (List.mem_cons_self _ _)
      have hne : name ≠ t.name := by
        intro heq
        exact ihin Phase.spawned (heq ▸ hmid)
      refine ⟨ihp, ?_, ?_⟩
      · intro ph hmem
        apply ihin ph
        rw [hin]
        rcases List.mem_append.mp hmem with h1 | h2
        · exact List.mem_append_left _ h1
        · exact List.mem_append_right _ (List.mem_cons_of_mem _ h2)
      · intro r hr
        rcases List.mem_append.mp hr with hold | hnew
        · exact ihres r hold
        · rw [List.mem_singleton] at hnew
          rw [hnew]
          exact hne
    | checkPass name l1 l2 hok hin =>
      have hmid : (name, Phase.spawned) ∈ s.inflight := by
        rw [hin]
        exact List.mem_append_right _ (List.mem_cons_self _ _)
      have hne : name ≠ t.name := by
        intro heq
        exact ihin Phase.spawned (heq ▸ hmid)
      refine ⟨ihp, ?_, ihres⟩
      intro ph hmem
      rcases List.mem_append.mp hmem with h1 | h2
      · exact ihin ph (by rw [hin]; exact List.mem_append_left _ h1)
      · rcases List.mem_cons.mp h2 with heq | h3
        · have : t.name = name := congrArg Prod.fst heq
          exact hne this.symm
        · exact ihin ph (by rw [hin]; exact List.mem_append_right _ (List.mem_cons_of_mem _ h3))
    | acquire name l1 l2 hav hin =>
      have hmid : (name, Phase.checked) ∈ s.inflight := by
        rw [hin]
        exact List.mem_append_right _ (List.mem_cons_self _ _)
      have hne : name ≠ t.name := by
        intro heq
        exact ihin Phase.checked (heq ▸ hmid)
      refine ⟨ihp, ?_, ihres⟩
      intro ph hmem
      rcases List.mem_append.mp hmem with h1 | h2
      · exact ihin ph (by rw [hin]; exact List.mem_append_left _ h1)
      · rcases List.mem_cons.mp h2 with heq | h3
        · have : t.name = name := congrArg Prod.fst heq
          exact hne this.symm
        · exact ihin ph (by rw [hin]; exact List.mem_append_right _ (List.mem_cons_of_mem _ h3))
    | takeTask name tk l1 l2 hin hpend htk =>
      have hmid : (name, Phase.acquired) ∈ s.inflight := by
        rw [hin]
        exact List.mem_append_right _ (List.mem_cons_self _ _)
      have hne : name ≠ t.name := by
        intro heq
        exact ihin Phase.acquired (heq ▸ hmid)
      refine ⟨?_, ?_, ihres⟩
      · exact (List.mem_erase_of_ne (fun hc => hne hc.symm)).mpr ihp
      · intro ph hmem
        rcases List.mem_append.mp hmem with h1 | h2
        · exact ihin ph (by rw [hin]; exact List.mem_append_left _ h1)
        · rcases List.mem_cons.mp h2 with heq | h3
          · have : t.name = name := congrArg Prod.fst heq
            exact hne this.symm
          · exact ihin ph (by rw [hin]; exact List.mem_append_right _ (List.mem_cons_of_mem _ h3))
    | takeNone name l1 l2 hin hnp =>
      refine ⟨ihp, ?_, ihres⟩
      intro ph hmem
      apply ihin ph
      rw [hin]
      rcases List.mem_append.mp hmem with h1 | h2
      · exact List.mem_append_left _ h1
      · exact List.mem_append_right _ (List.mem_cons_of_mem _ h2)
    | finish name outcome l1 l2 hin =>
      have hmid : (name, Phase.running outcome) ∈ s.inflight := by
        rw [hin]
        exact List.mem_append_right _ (List.mem_cons_self _ _)
      have hne : name ≠ t.name := by
        intro heq
        exact ihin (Phase.running outcome) (heq ▸ hmid)
      refine ⟨ihp, ?_, ?_⟩
      · intro ph hmem
        apply ihin ph
        rw [hin]
        rcases List.mem_append.mp hmem with h1 | h2
        · exact List.mem_append_left _ h1
        · exact List.mem_append_right _ (List.mem_cons_of_mem _ h2)
      · intro r hr
        rcases List.mem_append.mp hr with hold | hnew
        · exact ihres r hold
        · rw [List.mem_singleton] at hnew
          rw [hnew]
          cases outcome with
          | ok u => exact hne
          | error e => exact hne
    | mainFail hff hres =>
      exact ⟨ihp, ihin, ihres⟩

def okTask : SchedulerTask :=
  { name := "B", dependencies := [], outcome := .ok () }

def demoSchedConfig : SchedConfig :=
  { tasks := [okTask], concurrency := 1, failFast := true }

def ghostSchedConfig : SchedConfig :=
  { tasks := [ghostTask], concurrency := 2, failFast := true }

/-- Witness for the amended C1 theorem: with the concrete input
`[ghostTask]` the task `A` (dependency `ghost`, unknown) is pending,
unspawned and resultless in the initial reachable state. -/
theorem unknown_dep_stays_pending_witness :
    "A" ∈ (initState ghostSchedConfig).pending
    ∧ (∀ ph : Phase, ("A", ph) ∉ (initState ghostSchedConfig).inflight)
    ∧ (∀ r ∈ (initState ghostSchedConfig).results, r.name ≠ "A") :=
  unknown_dep_stays_pending ghostSchedConfig ghostTask (by decide) "ghost" (by decide)
    (by decide) (by decide) (initState ghostSchedConfig) Reachable.init

/-- Witness for C8 at the concrete one-task configuration and its initial
state. -/
theorem scheduler_concurrency_bound_witness :
    runningCount (initState demoSchedConfig) ≤ demoSchedConfig.concurrency
    ∧ (initState demoSchedConfig).available + permitHolders (initState demoSchedConfig)
        = demoSchedConfig.concurrency :=
  scheduler_concurrency_bound demoSchedConfig (initState demoSchedConfig) Reachable.init

/-- Witness for C9: a concrete five-step run of the one-task
configuration (spawn, fail-fast check, permit acquisition, task take,
finish) publishes the result `(B, Completed, none)`, which the theorem
certifies as final-status with no error. -/
theorem scheduler_results_good_witness :
    ((TaskResult.mk "B" TaskStatus.completed none).status = TaskStatus.completed
      ∨ (TaskResult.mk "B" TaskStatus.completed none).status = TaskStatus.failed
      ∨ (TaskResult.mk "B" TaskStatus.completed none).status = TaskStatus.cancelled)
    ∧ ((TaskResult.mk "B" TaskStatus.completed none).error = none
        ↔ (TaskResult.mk "B" TaskStatus.completed none).status = TaskStatus.completed) := by
  have h0 : Reachable demoSchedConfig (initState demoSchedConfig) := Reachable.init
  have h1 := Reachable.step h0
    (Step.spawn (initState demoSchedConfig) "B" (by decide)
      ⟨okTask, by decide, by intro d hd; simp [okTask] at hd⟩)
  have h2 := Reachable.step h1 (Step.checkPass _ "B" [] [] (Or.inr rfl) rfl)
  have h3 := Reachable.step h2 (Step.acquire _ "B" [] [] (by decide) rfl)
  have h4 := Reachable.step h3
    (Step.takeTask _ "B" okTask [] [] rfl (by decide) (by decide))
  have h5 := Reachable.step h4 (Step.finish _ "B" (.ok ()) [] [] rfl)
  exact scheduler_results_good demoSchedConfig _ h5
    (TaskResult.mk "B" TaskStatus.completed none) (by decide)
